import Mathlib

/-!
Verification of the story compiler in `pick_a_page/compiler.py`.

Strings are modelled as `List Char` (`Str`).  Python's `str.lower`,
`str.strip`, the regular expressions of the compiler and the dict used for
metadata are translated into explicit executable functions on `Str`.
Recursions that are not structural in Python (regex scanning, the reachability
DFS) are given an explicit fuel parameter; the call sites supply fuel that is
provably sufficient (see the fuel-congruence lemmas below), keeping every
definition kernel-computable.
-/

namespace PickAPage

/-- Strings of the model: Python `str` as a list of characters. -/
abbrev Str := List Char

/-- Shorthand turning a Lean string literal into a `Str`. -/
def lit (s : String) : Str := s.data

/-- Python's `\s` character class (ASCII part, as used by the compiler). -/
def isPySpace (c : Char) : Bool :=
  c == ' ' || c == '\t' || c == '\n' || c == '\r' || c == '\x0b' || c == '\x0c'

/-- Characters collapsed by `re.sub(r'[\s_]+', '-', ...)`: whitespace and underscore. -/
def isRunChar (c : Char) : Bool := isPySpace c || c == '_'

/-- The character class `[a-z0-9-]` kept by `_normalize_section_name`. -/
def isAllowed (c : Char) : Bool :=
  ('a' ≤ c && c ≤ 'z') || ('0' ≤ c && c ≤ '9') || c == '-'

/-- ASCII lowercasing of one character, as `str.lower` acts on ASCII. -/
def pyToLower (c : Char) : Char :=
  if 'A' ≤ c && c ≤ 'Z' then Char.ofNat (c.toNat + 32) else c

/-- `str.lower()`. -/
def pyLower (s : Str) : Str := s.map pyToLower

/-- `str.strip()`: remove leading and trailing whitespace. -/
def pyStrip (s : Str) : Str :=
  ((s.dropWhile isPySpace).reverse.dropWhile isPySpace).reverse

/-- Prepend a character to the first chunk of a chunk list (helper for splitting). -/
def consHead (c : Char) : List Str → List Str
  | [] => [[c]]
  | s :: rest => (c :: s) :: rest

/-- `str.split('\n')`. -/
def splitNl : Str → List Str
  | [] => [[]]
  | c :: rest => if c = '\n' then [] :: splitNl rest else consHead c (splitNl rest)

/-- `'\n'.join(lines)`. -/
def joinNl : List Str → Str
  | [] => []
  | [s] => s
  | s :: rest => s ++ '\n' :: joinNl rest

/-- `re.sub(r'[\s_]+', '-', s)`, written as a left-to-right scan whose Boolean
flag records whether the previous character belonged to a `[\s_]+` run. -/
def collapseAux : Bool → Str → Str
  | _, [] => []
  | inRun, c :: rest =>
    if isRunChar c then
      if inRun then collapseAux true rest else '-' :: collapseAux true rest
    else c :: collapseAux false rest

/-- `StoryCompiler._normalize_section_name`: lowercase, collapse `[\s_]+` runs
to a single hyphen, drop every character outside `[a-z0-9-]`. -/
def normalizeSectionName (name : Str) : Str :=
  (collapseAux false (pyLower name)).filter isAllowed

/-- One character of the spec-side run collapse: a run character yields a
hyphen exactly when its predecessor is not a run character. -/
def specStep (p : Char × Option Char) : Str :=
  if isRunChar p.1 then
    (match p.2 with
     | some d => if isRunChar d then [] else ['-']
     | none => ['-'])
  else [p.1]

/-- The specification's description of identifier normalization, written
independently: each character is paired with its predecessor, a run character
produces a hyphen exactly when its predecessor is not a run character, and
disallowed characters are removed afterwards. -/
def specCollapse (l : Str) : Str :=
  (l.zip ((none : Option Char) :: l.map some)).flatMap specStep

/-- Spec-side normalization: lowercase, collapse runs of whitespace and
underscores to one hyphen, strip characters outside `[a-z0-9-]`. -/
def specNormalize (name : Str) : Str :=
  (specCollapse (pyLower name)).filter isAllowed

/-- `ValidationError`: the compiler's hard parse-error type. -/
structure ValidationError where
  message : Str
deriving DecidableEq, Repr

/-- `StoryMetadata` dataclass. -/
structure StoryMetadata where
  title : Str
  author : Option Str := none
  start_section : Option Str := none
deriving DecidableEq, Repr

/-- `Choice` dataclass: display text plus normalized target. -/
structure Choice where
  text : Str
  target : Str
deriving DecidableEq, Repr

/-- `Image` dataclass. -/
structure Image where
  alt_text : Str
  path : Str
deriving DecidableEq, Repr

/-- `Section` dataclass: normalized name, raw content, choices, images. -/
structure Section where
  name : Str
  content : Str
  choices : List Choice := []
  images : List Image := []
deriving DecidableEq, Repr

/-- `Story` dataclass. -/
structure Story where
  metadata : StoryMetadata
  sections : List Section
deriving DecidableEq, Repr

/-- Python truthiness of an `Optional[str]`: not `None` and not empty. -/
def pyTruthy : Option Str → Bool
  | none => false
  | some s => s ≠ []

instance exceptDecEq {ε α : Type} [DecidableEq ε] [DecidableEq α] :
    DecidableEq (Except ε α) := fun a b =>
  match a, b with
  | .error e1, .error e2 =>
    if h : e1 = e2 then isTrue (by rw [h])
    else isFalse (by intro hc; injection hc; exact h ‹_›)
  | .ok x, .ok y =>
    if h : x = y then isTrue (by rw [h])
    else isFalse (by intro hc; injection hc; exact h ‹_›)
  | .error _, .ok _ => isFalse (by intro hc; exact Except.noConfusion hc)
  | .ok _, .error _ => isFalse (by intro hc; exact Except.noConfusion hc)

/-! ### Choice and image extraction

The pattern `\[\[([^\]|]+)(?:\|([^\]]+))?\]\]` is matched at one position:
`[[`, a maximal nonempty run of characters that are neither `]` nor `|`,
optionally `|` followed by a maximal nonempty run of non-`]` characters, then
`]]`.  Backtracking cannot lengthen either capture past its excluded
characters, so greedy `takeWhile`/`dropWhile` reproduce `re` exactly. -/

/-- Attempt the choice pattern at the start of `s`; on success return
(first capture, optional second capture, rest of the input). -/
def matchChoiceAt (s : Str) : Option (Str × Option Str × Str) :=
  match s with
  | c1 :: c2 :: rest =>
    if c1 = '[' ∧ c2 = '[' then
      let g1 := rest.takeWhile fun c => c != ']' && c != '|'
      let r1 := rest.dropWhile fun c => c != ']' && c != '|'
      if g1 = [] then none
      else if r1.take 1 = ['|'] then
        let r2 := r1.drop 1
        let g2 := r2.takeWhile fun c => c != ']'
        let r3 := r2.dropWhile fun c => c != ']'
        if g2 ≠ [] ∧ r3.take 2 = [']', ']'] then some (g1, some g2, r3.drop 2)
        else none
      else if r1.take 2 = [']', ']'] then some (g1, none, r1.drop 2)
      else none
    else none
  | _ => none

/-- `re.finditer` for the choice pattern, fuelled: try a match at the current
position; on success continue after the match, otherwise advance one
character. -/
def findChoiceMatchesF : Nat → Str → List (Str × Option Str)
  | 0, _ => []
  | _, [] => []
  | fuel + 1, c :: rest =>
    match matchChoiceAt (c :: rest) with
    | some (g1, g2, r) => (g1, g2) :: findChoiceMatchesF fuel r
    | none => findChoiceMatchesF fuel rest

/-- All matches of the choice pattern, left to right. -/
def findChoiceMatches (s : Str) : List (Str × Option Str) :=
  findChoiceMatchesF (s.length + 1) s

/-- The body of the loop in `_extract_choices`: strip the display text; use
the stripped explicit target, normalized, unless it is absent or strips to
the empty string, in which case normalize the stripped display text. -/
def choiceOfMatch (m : Str × Option Str) : Choice :=
  let text := pyStrip m.1
  match m.2 with
  | none => ⟨text, normalizeSectionName text⟩
  | some g2 =>
    let t := pyStrip g2
    if t = [] then ⟨text, normalizeSectionName text⟩
    else ⟨text, normalizeSectionName t⟩

/-- `StoryCompiler._extract_choices`. -/
def extractChoices (content : Str) : List Choice :=
  (findChoiceMatches content).map choiceOfMatch

/-- Attempt the image pattern `!\[([^\]]*)\]\(([^\)]+)\)` at the start of `s`. -/
def matchImageAt (s : Str) : Option (Str × Str × Str) :=
  match s with
  | '!' :: '[' :: rest =>
    let alt := rest.takeWhile fun c => c != ']'
    let r1 := rest.dropWhile fun c => c != ']'
    match r1 with
    | ']' :: '(' :: r2 =>
      let p := r2.takeWhile fun c => c != ')'
      let r3 := r2.dropWhile fun c => c != ')'
      if p ≠ [] ∧ r3.take 1 = [')'] then some (alt, p, r3.drop 1) else none
    | _ => none
  | _ => none

/-- `re.finditer` for the image pattern, fuelled. -/
def findImageMatchesF : Nat → Str → List (Str × Str)
  | 0, _ => []
  | _, [] => []
  | fuel + 1, c :: rest =>
    match matchImageAt (c :: rest) with
    | some (a, p, r) => (a, p) :: findImageMatchesF fuel r
    | none => findImageMatchesF fuel rest

/-- `StoryCompiler._extract_images`. -/
def extractImages (content : Str) : List Image :=
  (findImageMatchesF (content.length + 1) content).map fun m =>
    ⟨pyStrip m.1, pyStrip m.2⟩

/-! ### Metadata block

`re.match(r'^---\s*\n(.*?)\n---', content, re.DOTALL)` and
`re.sub(r'^---\s*\n.*?\n---\s*\n', '', content, count=1, flags=re.DOTALL)`.
`\s*\n` matches greedily with backtracking: it consumes up to and including
some `\n` of the maximal whitespace run, trying the latest `\n` first.
`(.*?)` is non-greedy: the earliest closing `\n---` is tried first, and on
failure of what follows the search continues rightwards; if no position
succeeds, the opening `\s*\n` backtracks to the previous `\n` of its run. -/

/-- `\s*\n` at the start of `s`: consume whitespace up to and including the
last `\n` of the maximal whitespace prefix; `none` if that prefix has no
`\n`.  Returns the rest of the input. -/
def spacesNl : Str → Option Str
  | [] => none
  | c :: rest =>
    if isPySpace c then
      match spacesNl rest with
      | some r => some r
      | none => if c = '\n' then some rest else none
    else none

/-- The remainders that `\s*\n` can leave, in backtracking order: one entry
per `\n` of the maximal whitespace prefix, latest `\n` first. -/
def openCandidates : Str → List Str
  | [] => []
  | c :: rest =>
    if isPySpace c then openCandidates rest ++ (if c = '\n' then [rest] else [])
    else []

/-- `(.*?)\n---`: find the earliest occurrence of `\n---` and return the
characters before it (the non-greedy first capture). -/
def findGroup : Str → Option Str
  | [] => none
  | c :: rest =>
    if c = '\n' ∧ rest.take 3 = ['-', '-', '-'] then some []
    else (findGroup rest).map (c :: ·)

/-- `re.match(r'^---\s*\n(.*?)\n---', content, re.DOTALL)`: the metadata text. -/
def matchMetadataGroup (s : Str) : Option Str :=
  match s with
  | '-' :: '-' :: '-' :: rest => (openCandidates rest).findSome? findGroup
  | _ => none

/-- `.*?\n---\s*\n`: scanning rightwards, find the earliest `\n---` that is
followed by a successful `\s*\n`; return what follows. -/
def findCloseFrom : Str → Option Str
  | [] => none
  | c :: rest =>
    if c = '\n' ∧ rest.take 3 = ['-', '-', '-'] then
      match spacesNl (rest.drop 3) with
      | some r => some r
      | none => findCloseFrom rest
    else findCloseFrom rest

/-- `re.sub(r'^---\s*\n.*?\n---\s*\n', '', content, count=1, flags=re.DOTALL)`:
remove the metadata block; if the pattern does not match, the input is
returned unchanged. -/
def subMetadata (s : Str) : Str :=
  match s with
  | '-' :: '-' :: '-' :: rest => ((openCandidates rest).findSome? findCloseFrom).getD s
  | _ => s

/-- Build the metadata dict: for each line, strip it, and if it contains a
colon, split at the first colon and strip key and value.  Later lines
overwrite earlier ones, as for a Python dict. -/
def buildDict (lines : List Str) : List (Str × Str) :=
  lines.foldl
    (fun d line =>
      let l := pyStrip line
      if l.contains ':' then
        (pyStrip (l.takeWhile fun c => c != ':'),
         pyStrip ((l.dropWhile fun c => c != ':').drop 1)) :: d
      else d)
    []

/-- Dict lookup: the most recent binding of `k` (entries are prepended). -/
def lookupDict (d : List (Str × Str)) (k : Str) : Option Str :=
  (d.find? fun p => p.1 == k).map (·.2)

/-- `StoryCompiler._parse_metadata`. -/
def parseMetadataE (content : Str) : Except ValidationError StoryMetadata :=
  match matchMetadataGroup content with
  | none =>
    .error ⟨lit "No metadata block found. Story must start with ---\\nmetadata\\n---"⟩
  | some g =>
    let d := buildDict (splitNl g)
    match lookupDict d (lit "title") with
    | none => .error ⟨lit "Metadata must include 'title' field"⟩
    | some t => .ok ⟨t, lookupDict d (lit "author"), lookupDict d (lit "start")⟩

/-! ### Section splitting and parsing -/

/-- `re.split(r'\n---\s*\n', s)`: cut at each leftmost non-overlapping match
of the separator.  Fuelled: each step consumes at least one character. -/
def splitSepF : Nat → Str → List Str
  | 0, s => [s]
  | _, [] => [[]]
  | fuel + 1, c :: rest =>
    if c = '\n' ∧ rest.take 3 = ['-', '-', '-'] then
      match spacesNl (rest.drop 3) with
      | some r => [] :: splitSepF fuel r
      | none => consHead c (splitSepF fuel rest)
    else consHead c (splitSepF fuel rest)

/-- `re.split(r'\n---\s*\n', s)`. -/
def splitSep (s : Str) : List Str := splitSepF (s.length + 1) s

/-- `re.match(r'^\[\[([^\]]+)\]\]$', line)`: the section-header pattern,
returning the raw name. -/
def matchHeader (l : Str) : Option Str :=
  match l with
  | '[' :: '[' :: rest =>
    let g := rest.takeWhile fun c => c != ']'
    let r := rest.dropWhile fun c => c != ']'
    if g ≠ [] ∧ r = [']', ']'] then some g else none
  | _ => none

/-- `StoryCompiler._parse_section`. -/
def parseSectionE (raw : Str) : Except ValidationError Section :=
  let lines := splitNl raw
  let headerLine := pyStrip (lines.headD [])
  match matchHeader headerLine with
  | none =>
    .error ⟨lit "Invalid section header: " ++ headerLine ++ lit ". Expected [[section name]]"⟩
  | some nameRaw =>
    let contentS := pyStrip (joinNl lines.tail)
    .ok ⟨normalizeSectionName nameRaw, contentS, extractChoices contentS, extractImages contentS⟩

/-- The loop of `_parse_sections`: skip chunks that strip to nothing, parse
each remaining chunk, and fail on a duplicate normalized name. -/
def parseSectionsGo (raws : List Str) (seen : List Str) :
    Except ValidationError (List Section) :=
  match raws with
  | [] => .ok []
  | raw :: rest =>
    let rs := pyStrip raw
    if rs = [] then parseSectionsGo rest seen
    else
      match parseSectionE rs with
      | .error e => .error e
      | .ok sec =>
        if sec.name ∈ seen then
          .error ⟨lit "Duplicate section name (duplicate): " ++ sec.name⟩
        else (parseSectionsGo rest (sec.name :: seen)).map (sec :: ·)

/-- `StoryCompiler._parse_sections`. -/
def parseSectionsE (content : Str) : Except ValidationError (List Section) :=
  parseSectionsGo (splitSep (subMetadata content)) []

/-- `StoryCompiler.parse`. -/
def parse (content : Str) : Except ValidationError Story :=
  if content = [] ∨ pyStrip content = [] then .error ⟨lit "Story content is empty"⟩
  else
    match parseMetadataE content with
    | .error e => .error e
    | .ok md =>
      match parseSectionsE content with
      | .error e => .error e
      | .ok [] => .error ⟨lit "No sections found in story"⟩
      | .ok (s0 :: srest) =>
        let md' := if pyTruthy md.start_section then md
                   else { md with start_section := some s0.name }
        .ok ⟨md', s0 :: srest⟩

/-! ### Validation -/

/-- Diagnostic of check 1: the start section does not exist. -/
def startMsg (s : Str) : Str :=
  lit "Start section '" ++ (s ++ lit "' does not exist")

/-- Diagnostic of check 2: a choice points at a non-existent section. -/
def danglingMsg (n t : Str) : Str :=
  lit "Section '" ++ (n ++ (lit "' has choice pointing to non-existent section '" ++ (t ++ lit "'")))

/-- Diagnostic of check 3: an orphaned section. -/
def orphanMsg (n : Str) : Str :=
  lit "Section '" ++ (n ++ lit "' is unreachable (orphaned)")

/-- `StoryCompiler._mark_reachable`, fuelled.  The visited set is a list used
only through membership; a name is added before its section's choices are
expanded, and a visited name is never expanded again. -/
def markReachable : Nat → Str → List Section → List Str → List Str
  | 0, _, _, reachable => reachable
  | fuel + 1, name, sections, reachable =>
    if name ∈ reachable then reachable
    else
      match sections.find? (fun s => s.name == name) with
      | none => name :: reachable
      | some s =>
        s.choices.foldl (fun r ch => markReachable fuel ch.target sections r)
          (name :: reachable)

/-- The set of section names of a story (as a list). -/
def sectionNames (story : Story) : List Str := story.sections.map Section.name

/-- Check 1 of `validate`: guarded by Python truthiness of `start_section`. -/
def startErrors (story : Story) : List Str :=
  match story.metadata.start_section with
  | some st => if st ≠ [] ∧ st ∉ sectionNames story then [startMsg st] else []
  | none => []

/-- The `reachable` set after the `_mark_reachable` call of `validate`
(empty when `start_section` is falsy). -/
def initialReachable (fuel : Nat) (story : Story) : List Str :=
  match story.metadata.start_section with
  | some st => if st ≠ [] then markReachable fuel st story.sections [] else []
  | none => []

/-- One step of the choice loop of `validate`: a dangling target appends a
diagnostic, a valid target is added to the reachable set. -/
def choiceStep (ns : List Str) (secName : Str) (a : List Str × List Str) (ch : Choice) :
    List Str × List Str :=
  if ch.target ∈ ns then (a.1, if ch.target ∈ a.2 then a.2 else ch.target :: a.2)
  else (a.1 ++ [danglingMsg secName ch.target], a.2)

/-- The choice loop of `validate` over all sections. -/
def choiceLoop (ns : List Str) (a : List Str × List Str) (secs : List Section) :
    List Str × List Str :=
  secs.foldl (fun a sec => sec.choices.foldl (choiceStep ns sec.name) a) a

/-- The orphan loop of `validate`: every section that is not the start
section and not in the final reachable set is reported. -/
def orphanErrors (story : Story) (reach : List Str) : List Str :=
  story.sections.filterMap fun sec =>
    if story.metadata.start_section ≠ some sec.name ∧ sec.name ∉ reach then
      some (orphanMsg sec.name)
    else none

/-- `StoryCompiler.validate` with explicit fuel for the reachability DFS. -/
def validateFuel (fuel : Nat) (story : Story) : List Str :=
  let ns := sectionNames story
  let p := choiceLoop ns ([], initialReachable fuel story) story.sections
  startErrors story ++ p.1 ++ orphanErrors story p.2

/-- `StoryCompiler.validate`.  The fuel `sections.length + 2` is sufficient:
each level of the DFS past the first inserts a fresh section name into the
visited set (see `validateFuel_eq_validate`). -/
def validate (story : Story) : List Str :=
  validateFuel (story.sections.length + 2) story

/-! ### Spec-side reachability -/

/-- The choice graph of a section list: `edge secs a b` holds when the first
section named `a` has a choice whose target is `b`. -/
def edge (secs : List Section) (a b : Str) : Prop :=
  ∃ s, secs.find? (fun t => t.name == a) = some s ∧ b ∈ s.choices.map Choice.target

/-- Transitive reachability from the start section by traversing choice
targets (`False` when no start section is set). -/
def startReaches (story : Story) (m : Str) : Prop :=
  match story.metadata.start_section with
  | some st => Relation.ReflTransGen (edge story.sections) st m
  | none => False

/-! ### Lemmas about normalization -/

lemma collapseAux_eq_spec (l : Str) :
    ∀ (b : Bool) (p : Option Char),
      (match p with | some d => isRunChar d | none => false) = b →
      collapseAux b l = (l.zip (p :: l.map some)).flatMap specStep := by
  induction l with
  | nil => intro b p _; rfl
  | cons c rest ih =>
    intro b p hb
    have hrec := ih (isRunChar c) (some c) rfl
    simp only [List.map_cons, List.zip_cons_cons, List.flatMap_cons]
    rw [← hrec]
    cases hc : isRunChar c with
    | true =>
      cases p with
      | none =>
        subst hb; simp [collapseAux, specStep, hc]
      | some d =>
        subst hb
        cases hd : isRunChar d with
        | true => simp [collapseAux, specStep, hc, hd]
        | false => simp [collapseAux, specStep, hc, hd]
    | false =>
      cases p with
      | none => subst hb; simp [collapseAux, specStep, hc]
      | some d => subst hb; simp [collapseAux, specStep, hc]

lemma normalize_eq_spec (x : Str) : normalizeSectionName x = specNormalize x := by
  unfold normalizeSectionName specNormalize specCollapse
  rw [collapseAux_eq_spec (pyLower x) false none rfl]

lemma run_not_allowed {c : Char} (h : isRunChar c = true) : isAllowed c = false := by
  simp only [isRunChar, isPySpace, Bool.or_eq_true, beq_iff_eq] at h
  rcases h with ((((((h | h) | h) | h) | h) | h) | h) <;> subst h <;> decide

lemma allowed_toLower {c : Char} (h : isAllowed c = true) : pyToLower c = c := by
  simp only [isAllowed, Bool.or_eq_true, Bool.and_eq_true, decide_eq_true_eq,
    beq_iff_eq] at h
  unfold pyToLower
  split
  · next hAZ =>
    simp only [Bool.and_eq_true, decide_eq_true_eq] at hAZ
    rcases h with ((⟨h1, h2⟩ | ⟨h1, h2⟩) | h3)
    · exact absurd (le_trans h1 hAZ.2) (by decide)
    · exact absurd (le_trans hAZ.1 h2) (by decide)
    · subst h3; exact absurd hAZ.1 (by decide)
  · rfl

lemma collapseAux_id {l : Str} (h : ∀ c ∈ l, isRunChar c = false) :
    collapseAux false l = l := by
  induction l with
  | nil => rfl
  | cons c rest ih =>
    have hc := h c (List.mem_cons_self c rest)
    simp [collapseAux, hc, ih fun d hd => h d (List.mem_cons_of_mem c hd)]

lemma pyLower_id {l : Str} (h : ∀ c ∈ l, isAllowed c = true) : pyLower l = l := by
  induction l with
  | nil => rfl
  | cons c rest ih =>
    simp only [pyLower, List.map_cons]
    rw [allowed_toLower (h c (List.mem_cons_self c rest))]
    have := ih fun d hd => h d (List.mem_cons_of_mem c hd)
    simp only [pyLower] at this
    rw [this]

lemma normalize_allowed {x : Str} : ∀ c ∈ normalizeSectionName x, isAllowed c = true :=
  fun c hc => by
    have := List.mem_filter.mp hc
    exact this.2

lemma normalize_idem (x : Str) :
    normalizeSectionName (normalizeSectionName x) = normalizeSectionName x := by
  have hall := @normalize_allowed x
  show (collapseAux false (pyLower (normalizeSectionName x))).filter isAllowed =
    normalizeSectionName x
  rw [pyLower_id hall, collapseAux_id fun c hc => by
    have ha := hall c hc
    cases hr : isRunChar c with
    | true => rw [run_not_allowed hr] at ha; exact absurd ha (by decide)
    | false => rfl]
  exact List.filter_eq_self.mpr hall

/-! ### Lemmas about the choice scanner -/

lemma takeWhile_append_all {α : Type} {p : α → Bool} :
    ∀ {l₁ : List α} (l₂ : List α), (∀ c ∈ l₁, p c = true) →
      (l₁ ++ l₂).takeWhile p = l₁ ++ l₂.takeWhile p := by
  intro l₁
  induction l₁ with
  | nil => intro l₂ _; rfl
  | cons a l ih =>
    intro l₂ h
    have ha := h a (List.mem_cons_self a l)
    simp only [List.cons_append, List.takeWhile_cons, ha, if_true]
    rw [ih l₂ fun c hc => h c (List.mem_cons_of_mem a hc)]

lemma dropWhile_append_all {α : Type} {p : α → Bool} :
    ∀ {l₁ : List α} (l₂ : List α), (∀ c ∈ l₁, p c = true) →
      (l₁ ++ l₂).dropWhile p = l₂.dropWhile p := by
  intro l₁
  induction l₁ with
  | nil => intro l₂ _; rfl
  | cons a l ih =>
    intro l₂ h
    have ha := h a (List.mem_cons_self a l)
    simp only [List.cons_append, List.dropWhile_cons, ha, if_true]
    exact ih l₂ fun c hc => h c (List.mem_cons_of_mem a hc)

lemma matchChoiceAt_length {s g1 : Str} {g2 : Option Str} {r : Str}
    (h : matchChoiceAt s = some (g1, g2, r)) : r.length < s.length := by
  cases s with
  | nil => exact absurd h (by simp [matchChoiceAt])
  | cons c1 s1 =>
    cases s1 with
    | nil => exact absurd h (by simp [matchChoiceAt])
    | cons c2 rest =>
      unfold matchChoiceAt at h
      have hd1 : (rest.dropWhile fun c => c != ']' && c != '|').length ≤ rest.length :=
        (List.dropWhile_sublist _).length_le
      have hd2 : (((rest.dropWhile fun c => c != ']' && c != '|').drop 1).dropWhile
          fun c => c != ']').length ≤
          ((rest.dropWhile fun c => c != ']' && c != '|').drop 1).length :=
        (List.dropWhile_sublist _).length_le
      have hd3 := List.length_drop 1 (rest.dropWhile fun c => c != ']' && c != '|')
      simp only at h
      split at h <;> [skip; exact absurd h (by simp)]
      split at h <;> [exact absurd h (by simp); skip]
      split at h
      · split at h <;> [skip; exact absurd h (by simp)]
        have hr := congrArg (fun t : Str × Option Str × Str => t.2.2) (Option.some.inj h)
        simp only at hr
        subst hr
        simp only [List.length_drop, List.length_cons]
        omega
      · split at h <;> [skip; exact absurd h (by simp)]
        have hr := congrArg (fun t : Str × Option Str × Str => t.2.2) (Option.some.inj h)
        simp only at hr
        subst hr
        simp only [List.length_drop, List.length_cons]
        omega

lemma findChoiceMatchesF_congr :
    ∀ (f₁ f₂ : Nat) (s : Str), s.length < f₁ → s.length < f₂ →
      findChoiceMatchesF f₁ s = findChoiceMatchesF f₂ s := by
  intro f₁
  induction f₁ with
  | zero => intro f₂ s h1 _; exact absurd h1 (by omega)
  | succ f₁ ih =>
    intro f₂ s h1 h2
    cases s with
    | nil =>
      cases f₂ with
      | zero => exact absurd h2 (by omega)
      | succ f₂ => rfl
    | cons c rest =>
      cases f₂ with
      | zero => exact absurd h2 (by omega)
      | succ f₂ =>
        simp only [List.length_cons] at h1 h2
        simp only [findChoiceMatchesF]
        cases hm : matchChoiceAt (c :: rest) with
        | none => exact ih f₂ rest (by omega) (by omega)
        | some t =>
          obtain ⟨g1, g2, r⟩ := t
          have hr := matchChoiceAt_length hm
          simp only [List.length_cons] at hr
          exact congrArg (List.cons (g1, g2)) (ih f₂ r (by omega) (by omega))

/-- A well-formed choice token: the captures are nonempty and avoid the
characters excluded by the regular expression's character classes. -/
def WFtok (g1 : Str) (g2 : Option Str) : Prop :=
  g1 ≠ [] ∧ (∀ c ∈ g1, c ≠ ']' ∧ c ≠ '|') ∧
    ∀ t ∈ g2, t ≠ [] ∧ ∀ c ∈ t, c ≠ ']'

instance (g1 : Str) (g2 : Option Str) : Decidable (WFtok g1 g2) := by
  unfold WFtok
  infer_instance

/-- The text between `[[` and `]]` of a choice token with the given captures. -/
def tokInner (g1 : Str) (g2 : Option Str) : Str :=
  g1 ++ ((match g2 with | none => [] | some t => '|' :: t) ++ [']', ']'])

/-- The literal text of a choice token with the given captures. -/
def tokenOf (g1 : Str) (g2 : Option Str) : Str :=
  '[' :: '[' :: tokInner g1 g2

/-- Join strings with single spaces. -/
def spaceJoin : List Str → Str
  | [] => []
  | [s] => s
  | s :: rest => s ++ ' ' :: spaceJoin rest

lemma matchChoiceAt_token (g1 : Str) (g2 : Option Str) (rest : Str) (h : WFtok g1 g2) :
    matchChoiceAt (tokenOf g1 g2 ++ rest) = some (g1, g2, rest) := by
  obtain ⟨h1, h2, h3⟩ := h
  have hg1 : ∀ c ∈ g1, (c != ']' && c != '|') = true := by
    intro c hc
    have := h2 c hc
    simp [this.1, this.2]
  cases g2 with
  | none =>
    have hshape : tokenOf g1 none ++ rest = '[' :: '[' :: (g1 ++ (']' :: ']' :: rest)) := by
      simp [tokenOf, tokInner]
    rw [hshape]
    simp only [matchChoiceAt, and_self, if_true]
    rw [takeWhile_append_all _ hg1, dropWhile_append_all _ hg1]
    simp [h1]
  | some t =>
    obtain ⟨ht1, ht2⟩ := h3 t rfl
    have hgt : ∀ c ∈ t, (c != ']') = true := by
      intro c hc; simp [ht2 c hc]
    have hshape : tokenOf g1 (some t) ++ rest =
        '[' :: '[' :: (g1 ++ ('|' :: (t ++ (']' :: ']' :: rest)))) := by
      simp [tokenOf, tokInner]
    rw [hshape]
    simp only [matchChoiceAt, and_self, if_true]
    rw [takeWhile_append_all _ hg1, dropWhile_append_all _ hg1]
    simp only [List.takeWhile_cons, List.dropWhile_cons,
      show ('|' != ']' && '|' != '|') = false from rfl, Bool.false_eq_true, if_false,
      List.append_nil, List.take_cons, List.drop_succ_cons, List.drop_zero, List.take_zero]
    rw [takeWhile_append_all _ hgt, dropWhile_append_all _ hgt]
    simp [h1, ht1]

lemma findChoiceMatches_token (g1 : Str) (g2 : Option Str) (rest : Str) (h : WFtok g1 g2) :
    findChoiceMatches (tokenOf g1 g2 ++ rest) = (g1, g2) :: findChoiceMatches rest := by
  have hm := matchChoiceAt_token g1 g2 rest h
  have hlen : rest.length < (tokenOf g1 g2 ++ rest).length := matchChoiceAt_length hm
  show findChoiceMatchesF ((tokenOf g1 g2 ++ rest).length + 1)
    ('[' :: '[' :: (tokInner g1 g2 ++ rest)) = _
  have hm' : matchChoiceAt ('[' :: '[' :: (tokInner g1 g2 ++ rest)) = some (g1, g2, rest) := hm
  simp only [findChoiceMatchesF, hm']
  exact congrArg (List.cons (g1, g2))
    (findChoiceMatchesF_congr _ _ rest (by omega) (by omega))

lemma findChoiceMatches_space (s : Str) :
    findChoiceMatches (' ' :: s) = findChoiceMatches s := by
  show findChoiceMatchesF (s.length + 2) (' ' :: s) = _
  have hm : matchChoiceAt (' ' :: s) = none := by
    cases s with
    | nil => rfl
    | cons c rest =>
      unfold matchChoiceAt
      simp only
      rw [if_neg]
      intro hcon
      exact absurd hcon.1 (by decide)
  simp only [findChoiceMatchesF, hm]
  rfl

lemma extractChoices_tokens (toks : List (Str × Option Str))
    (h : ∀ p ∈ toks, WFtok p.1 p.2) :
    extractChoices (spaceJoin (toks.map fun p => tokenOf p.1 p.2)) =
      toks.map choiceOfMatch := by
  induction toks with
  | nil => rfl
  | cons p rest ih =>
    obtain ⟨g1, g2⟩ := p
    have hp := h (g1, g2) (List.mem_cons_self _ _)
    cases rest with
    | nil =>
      show extractChoices (tokenOf g1 g2) = _
      unfold extractChoices
      rw [show tokenOf g1 g2 = tokenOf g1 g2 ++ [] from (List.append_nil _).symm,
        findChoiceMatches_token g1 g2 [] hp]
      rfl
    | cons q more =>
      show extractChoices (tokenOf g1 g2 ++ ' ' ::
        spaceJoin ((q :: more).map fun p => tokenOf p.1 p.2)) = _
      unfold extractChoices
      rw [findChoiceMatches_token _ _ _ hp, findChoiceMatches_space]
      have hrec := ih fun p hp' => h p (List.mem_cons_of_mem _ hp')
      unfold extractChoices at hrec
      simp only [List.map_cons] at hrec ⊢
      rw [hrec]

/-! ### Lemmas about the reachability DFS -/

lemma foldl_mark_mono (fuel : Nat) (secs : List Section)
    (hstep : ∀ n r, r ⊆ markReachable fuel n secs r) :
    ∀ (l : List Choice) (acc : List Str),
      acc ⊆ l.foldl (fun r ch => markReachable fuel ch.target secs r) acc := by
  intro l
  induction l with
  | nil => intro acc; exact fun x hx => hx
  | cons c l ih =>
    intro acc
    simp only [List.foldl_cons]
    exact List.Subset.trans (hstep c.target acc) (ih _)

lemma markReachable_mono :
    ∀ (fuel : Nat) (n : Str) (secs : List Section) (r : List Str),
      r ⊆ markReachable fuel n secs r := by
  intro fuel
  induction fuel with
  | zero => intro n secs r; exact fun x hx => hx
  | succ fuel ih =>
    intro n secs r
    unfold markReachable
    split
    · exact fun x hx => hx
    · cases hf : secs.find? (fun s => s.name == n) with
      | none => exact List.subset_cons_self n r
      | some s =>
        exact List.Subset.trans (List.subset_cons_self n r)
          (foldl_mark_mono fuel secs (fun n' r' => ih n' secs r') s.choices (n :: r))

/-- The number of section names not yet in the visited set. -/
def countFree (secs : List Section) (r : List Str) : Nat :=
  ((secs.map Section.name).filter fun x => decide (x ∉ r)).length

lemma filter_not_mem_anti {r r' : List Str} (h : r ⊆ r') :
    ∀ (l : List Str),
      (l.filter fun x => decide (x ∉ r')).length ≤
        (l.filter fun x => decide (x ∉ r)).length := by
  intro l
  induction l with
  | nil => exact Nat.le_refl 0
  | cons a l ih =>
    by_cases ha : a ∈ r'
    · have e1 : (a :: l).filter (fun x => decide (x ∉ r')) =
          l.filter (fun x => decide (x ∉ r')) := by
        simp [List.filter_cons, ha]
      rw [e1]
      by_cases ha2 : a ∈ r
      · have e2 : (a :: l).filter (fun x => decide (x ∉ r)) =
            l.filter (fun x => decide (x ∉ r)) := by
          simp [List.filter_cons, ha2]
        rw [e2]; exact ih
      · have e2 : (a :: l).filter (fun x => decide (x ∉ r)) =
            a :: l.filter (fun x => decide (x ∉ r)) := by
          simp [List.filter_cons, ha2]
        rw [e2]; exact Nat.le_succ_of_le ih
    · have ha2 : a ∉ r := fun hc => ha (h hc)
      have e1 : (a :: l).filter (fun x => decide (x ∉ r')) =
          a :: l.filter (fun x => decide (x ∉ r')) := by
        simp [List.filter_cons, ha]
      have e2 : (a :: l).filter (fun x => decide (x ∉ r)) =
          a :: l.filter (fun x => decide (x ∉ r)) := by
        simp [List.filter_cons, ha2]
      rw [e1, e2]
      exact Nat.succ_le_succ ih

lemma filter_not_mem_cons_lt {n : Str} {r : List Str} (hnr : n ∉ r) :
    ∀ (l : List Str), n ∈ l →
      (l.filter fun x => decide (x ∉ n :: r)).length <
        (l.filter fun x => decide (x ∉ r)).length := by
  intro l
  induction l with
  | nil => intro h; exact absurd h (List.not_mem_nil n)
  | cons a l ih =>
    intro hmem
    by_cases han : a = n
    · subst han
      have e1 : (a :: l).filter (fun x => decide (x ∉ a :: r)) =
          l.filter (fun x => decide (x ∉ a :: r)) := by
        simp [List.filter_cons]
      have e2 : (a :: l).filter (fun x => decide (x ∉ r)) =
          a :: l.filter (fun x => decide (x ∉ r)) := by
        simp [List.filter_cons, hnr]
      rw [e1, e2]
      exact Nat.lt_succ_of_le (filter_not_mem_anti (List.subset_cons_self a r) l)
    · have hmem' : n ∈ l := by
        cases List.mem_cons.mp hmem with
        | inl h => exact absurd h.symm han
        | inr h => exact h
      by_cases ha : a ∈ r
      · have e1 : (a :: l).filter (fun x => decide (x ∉ n :: r)) =
            l.filter (fun x => decide (x ∉ n :: r)) := by
          simp [List.filter_cons, ha]
        have e2 : (a :: l).filter (fun x => decide (x ∉ r)) =
            l.filter (fun x => decide (x ∉ r)) := by
          simp [List.filter_cons, ha]
        rw [e1, e2]; exact ih hmem'
      · have hann : a ∉ n :: r := by
          simp only [List.mem_cons, not_or]
          exact ⟨han, ha⟩
        have e1 : (a :: l).filter (fun x => decide (x ∉ n :: r)) =
            a :: l.filter (fun x => decide (x ∉ n :: r)) := by
          simp only [List.filter_cons, hann, not_false_eq_true, decide_eq_true_eq,
            if_pos]
        have e2 : (a :: l).filter (fun x => decide (x ∉ r)) =
            a :: l.filter (fun x => decide (x ∉ r)) := by
          simp [List.filter_cons, ha]
        rw [e1, e2]; exact Nat.succ_lt_succ (ih hmem')

lemma countFree_anti (secs : List Section) {r r' : List Str} (h : r ⊆ r') :
    countFree secs r' ≤ countFree secs r :=
  filter_not_mem_anti h _

lemma countFree_cons_lt (secs : List Section) {n : Str} {r : List Str}
    (hn : n ∈ secs.map Section.name) (hnr : n ∉ r) :
    countFree secs (n :: r) < countFree secs r :=
  filter_not_mem_cons_lt hnr _ hn

lemma find?_name_mem {secs : List Section} {n : Str} {s : Section}
    (hf : secs.find? (fun t => t.name == n) = some s) :
    s.name = n ∧ n ∈ secs.map Section.name := by
  have h1 := List.find?_some hf
  have h2 : s ∈ secs := List.mem_of_find?_eq_some hf
  have h3 : s.name = n := by simpa using h1
  exact ⟨h3, h3 ▸ List.mem_map_of_mem Section.name h2⟩

lemma foldl_mark_congr (f : Nat) (secs : List Section) (R : List Str)
    (hcong : ∀ t acc, R ⊆ acc →
      markReachable (f + 1) t secs acc = markReachable f t secs acc) :
    ∀ (l : List Choice) (acc : List Str), R ⊆ acc →
      l.foldl (fun r ch => markReachable (f + 1) ch.target secs r) acc =
        l.foldl (fun r ch => markReachable f ch.target secs r) acc := by
  intro l
  induction l with
  | nil => intro acc _; rfl
  | cons c l ih =>
    intro acc hacc
    simp only [List.foldl_cons]
    rw [hcong c.target acc hacc]
    exact ih _ (List.Subset.trans hacc (markReachable_mono f c.target secs acc))

lemma markReachable_succ_eq :
    ∀ (fuel : Nat) (secs : List Section) (n : Str) (r : List Str),
      countFree secs r + 2 ≤ fuel →
      markReachable (fuel + 1) n secs r = markReachable fuel n secs r := by
  intro fuel
  induction fuel using Nat.strong_induction_on with
  | _ fuel ih =>
    intro secs n r hfuel
    obtain ⟨f, rfl⟩ : ∃ f, fuel = f + 1 := ⟨fuel - 1, by omega⟩
    show markReachable (f + 1 + 1) n secs r = markReachable (f + 1) n secs r
    unfold markReachable
    split
    · rfl
    · next hnr =>
      cases hf : secs.find? (fun s => s.name == n) with
      | none => rfl
      | some s =>
        have hn := (find?_name_mem hf).2
        have hlt := countFree_cons_lt secs hn hnr
        refine foldl_mark_congr f secs (n :: r) ?_ s.choices (n :: r)
          (fun x hx => hx)
        intro t acc hacc
        exact ih f (by omega) secs t acc
          (by have := countFree_anti secs hacc; omega)

lemma markReachable_ge_eq (secs : List Section) (n : Str) (r : List Str) :
    ∀ (k : Nat),
      markReachable (countFree secs r + 2 + k) n secs r =
        markReachable (countFree secs r + 2) n secs r := by
  intro k
  induction k with
  | zero => rfl
  | succ k ih =>
    have : countFree secs r + 2 + (k + 1) = (countFree secs r + 2 + k) + 1 := by omega
    rw [this, markReachable_succ_eq (countFree secs r + 2 + k) secs n r (by omega), ih]

lemma markReachable_fuel_eq {secs : List Section} {n : Str} {fuel₁ fuel₂ : Nat}
    (h1 : secs.length + 2 ≤ fuel₁) (h2 : secs.length + 2 ≤ fuel₂) :
    markReachable fuel₁ n secs [] = markReachable fuel₂ n secs [] := by
  have hb : countFree secs [] ≤ secs.length := by
    have h := List.length_filter_le (fun x => decide (x ∉ ([] : List Str)))
      (secs.map Section.name)
    simp only [List.length_map] at h
    exact h
  have e1 : fuel₁ = countFree secs [] + 2 + (fuel₁ - (countFree secs [] + 2)) := by omega
  have e2 : fuel₂ = countFree secs [] + 2 + (fuel₂ - (countFree secs [] + 2)) := by omega
  rw [e1, markReachable_ge_eq, e2, markReachable_ge_eq]

lemma foldl_mark_sound (fuel : Nat) (secs : List Section)
    (ih : ∀ n r m, m ∈ markReachable fuel n secs r →
      m ∈ r ∨ Relation.ReflTransGen (edge secs) n m) :
    ∀ (l : List Choice) (acc : List Str) (m : Str),
      m ∈ l.foldl (fun r ch => markReachable fuel ch.target secs r) acc →
      m ∈ acc ∨ ∃ c ∈ l, Relation.ReflTransGen (edge secs) c.target m := by
  intro l
  induction l with
  | nil => intro acc m hm; exact Or.inl hm
  | cons c l ihl =>
    intro acc m hm
    simp only [List.foldl_cons] at hm
    cases ihl _ m hm with
    | inl h =>
      cases ih c.target acc m h with
      | inl h2 => exact Or.inl h2
      | inr h2 => exact Or.inr ⟨c, List.mem_cons_self c l, h2⟩
    | inr h =>
      obtain ⟨c', hc', hrtg⟩ := h
      exact Or.inr ⟨c', List.mem_cons_of_mem c hc', hrtg⟩

lemma markReachable_sound :
    ∀ (fuel : Nat) (secs : List Section) (n : Str) (r : List Str) (m : Str),
      m ∈ markReachable fuel n secs r →
      m ∈ r ∨ Relation.ReflTransGen (edge secs) n m := by
  intro fuel
  induction fuel with
  | zero => intro secs n r m hm; exact Or.inl hm
  | succ fuel ih =>
    intro secs n r m hm
    unfold markReachable at hm
    split at hm
    · exact Or.inl hm
    · cases hf : secs.find? (fun s => s.name == n) with
      | none =>
        rw [hf] at hm
        cases List.mem_cons.mp hm with
        | inl h => exact Or.inr (h ▸ Relation.ReflTransGen.refl)
        | inr h => exact Or.inl h
      | some s =>
        rw [hf] at hm
        cases foldl_mark_sound fuel secs (fun n' r' m' => ih secs n' r' m')
            s.choices (n :: r) m hm with
        | inl h =>
          cases List.mem_cons.mp h with
          | inl h2 => exact Or.inr (h2 ▸ Relation.ReflTransGen.refl)
          | inr h2 => exact Or.inl h2
        | inr h =>
          obtain ⟨c, hc, hrtg⟩ := h
          have hedge : edge secs n c.target :=
            ⟨s, hf, List.mem_map_of_mem Choice.target hc⟩
          exact Or.inr (Relation.ReflTransGen.head hedge hrtg)

/-! ### Lemmas about the validation loops and diagnostics -/

lemma choiceFold_fst (ns : List Str) (n : Str) :
    ∀ (l : List Choice) (a : List Str × List Str),
      (l.foldl (choiceStep ns n) a).1 =
        a.1 ++ (l.filter fun ch => decide (ch.target ∉ ns)).map
          (fun ch => danglingMsg n ch.target) := by
  intro l
  induction l with
  | nil => intro a; simp
  | cons c l ih =>
    intro a
    simp only [List.foldl_cons]
    rw [ih]
    by_cases hc : c.target ∈ ns
    · have e1 : (choiceStep ns n a c).1 = a.1 := by simp [choiceStep, hc]
      have e2 : (c :: l).filter (fun ch => decide (ch.target ∉ ns)) =
          l.filter (fun ch => decide (ch.target ∉ ns)) := by
        simp [List.filter_cons, hc]
      rw [e1, e2]
    · have e1 : (choiceStep ns n a c).1 = a.1 ++ [danglingMsg n c.target] := by
        simp [choiceStep, hc]
      have e2 : (c :: l).filter (fun ch => decide (ch.target ∉ ns)) =
          c :: l.filter (fun ch => decide (ch.target ∉ ns)) := by
        simp [List.filter_cons, hc]
      rw [e1, e2]
      simp

lemma choiceFold_snd_mem (ns : List Str) (n : Str) :
    ∀ (l : List Choice) (a : List Str × List Str) (m : Str),
      m ∈ (l.foldl (choiceStep ns n) a).2 ↔
        m ∈ a.2 ∨ ∃ ch ∈ l, ch.target = m ∧ m ∈ ns := by
  intro l
  induction l with
  | nil => intro a m; simp
  | cons c l ih =>
    intro a m
    simp only [List.foldl_cons]
    rw [ih]
    constructor
    · intro h
      cases h with
      | inl h =>
        by_cases hc : c.target ∈ ns
        · simp only [choiceStep, hc, if_true] at h
          by_cases hmem : c.target ∈ a.2
          · rw [if_pos hmem] at h
            exact Or.inl h
          · rw [if_neg hmem] at h
            cases List.mem_cons.mp h with
            | inl h2 => exact Or.inr ⟨c, List.mem_cons_self c l, h2.symm, h2 ▸ hc⟩
            | inr h2 => exact Or.inl h2
        · simp only [choiceStep, hc, if_false] at h
          exact Or.inl h
      | inr h =>
        obtain ⟨ch, hch, he, hns⟩ := h
        exact Or.inr ⟨ch, List.mem_cons_of_mem c hch, he, hns⟩
    · intro h
      have hsub : m ∈ a.2 → m ∈ (choiceStep ns n a c).2 := by
        intro hm
        simp only [choiceStep]
        by_cases hc : c.target ∈ ns
        · simp only [hc, if_true]
          by_cases hmem : c.target ∈ a.2
          · rw [if_pos hmem]; exact hm
          · rw [if_neg hmem]; exact List.mem_cons_of_mem _ hm
        · simp only [hc, if_false]; exact hm
      cases h with
      | inl h2 => exact Or.inl (hsub h2)
      | inr h2 =>
        obtain ⟨ch, hch, he, hns⟩ := h2
        cases List.mem_cons.mp hch with
        | inl hc2 =>
          subst hc2
          subst he
          left
          simp only [choiceStep, hns, if_true]
          by_cases hmem : ch.target ∈ a.2
          · rw [if_pos hmem]; exact hmem
          · rw [if_neg hmem]; exact List.mem_cons_self _ _
        | inr hc2 => exact Or.inr ⟨ch, hc2, he, hns⟩

lemma choiceLoop_fst (ns : List Str) :
    ∀ (secs : List Section) (a : List Str × List Str),
      (choiceLoop ns a secs).1 =
        a.1 ++ secs.flatMap (fun sec =>
          (sec.choices.filter fun ch => decide (ch.target ∉ ns)).map
            (fun ch => danglingMsg sec.name ch.target)) := by
  intro secs
  induction secs with
  | nil => intro a; simp [choiceLoop]
  | cons sec secs ih =>
    intro a
    show (choiceLoop ns (sec.choices.foldl (choiceStep ns sec.name) a) secs).1 = _
    rw [ih, choiceFold_fst]
    simp

lemma choiceLoop_snd_mem (ns : List Str) :
    ∀ (secs : List Section) (a : List Str × List Str) (m : Str),
      m ∈ (choiceLoop ns a secs).2 ↔
        m ∈ a.2 ∨ ∃ sec ∈ secs, ∃ ch ∈ sec.choices, ch.target = m ∧ m ∈ ns := by
  intro secs
  induction secs with
  | nil => intro a m; simp [choiceLoop]
  | cons sec secs ih =>
    intro a m
    show m ∈ (choiceLoop ns (sec.choices.foldl (choiceStep ns sec.name) a) secs).2 ↔ _
    rw [ih, choiceFold_snd_mem]
    constructor
    · intro h
      rcases h with ((h | h) | h)
      · exact Or.inl h
      · obtain ⟨ch, hch, he, hns⟩ := h
        exact Or.inr ⟨sec, List.mem_cons_self sec secs, ch, hch, he, hns⟩
      · obtain ⟨sec', hsec', rest⟩ := h
        exact Or.inr ⟨sec', List.mem_cons_of_mem sec hsec', rest⟩
    · intro h
      rcases h with (h | ⟨sec', hsec', ch, hch, he, hns⟩)
      · exact Or.inl (Or.inl h)
      · cases List.mem_cons.mp hsec' with
        | inl h2 => subst h2; exact Or.inl (Or.inr ⟨ch, hch, he, hns⟩)
        | inr h2 => exact Or.inr ⟨sec', h2, ch, hch, he, hns⟩

lemma orphanMsg_take (a : Str) : (orphanMsg a).take 2 = ['S', 'e'] := rfl

lemma startMsg_take (a : Str) : (startMsg a).take 2 = ['S', 't'] := rfl

lemma orphanMsg_ne_startMsg (a b : Str) : orphanMsg a ≠ startMsg b := by
  intro h
  have h1 := orphanMsg_take a
  rw [h, startMsg_take] at h1
  exact absurd h1 (by decide)

lemma orphanMsg_last (a : Str) : (orphanMsg a).reverse.take 1 = [')'] := by
  simp only [orphanMsg, List.reverse_append, List.append_assoc]
  rfl

lemma danglingMsg_last (a t : Str) : (danglingMsg a t).reverse.take 1 = ['\''] := by
  simp only [danglingMsg, List.reverse_append, List.append_assoc]
  rfl

lemma orphanMsg_ne_danglingMsg (a b t : Str) : orphanMsg a ≠ danglingMsg b t := by
  intro h
  have h1 := orphanMsg_last a
  rw [h, danglingMsg_last] at h1
  exact absurd h1 (by decide)

lemma orphanMsg_inj {a b : Str} (h : orphanMsg a = orphanMsg b) : a = b := by
  unfold orphanMsg at h
  exact List.append_cancel_right (List.append_cancel_left h)

lemma orphanErrors_mem {story : Story} {reach : List Str} {s : Section}
    (hs : s ∈ story.sections) :
    orphanMsg s.name ∈ orphanErrors story reach ↔
      (story.metadata.start_section ≠ some s.name ∧ s.name ∉ reach) := by
  constructor
  · intro h
    obtain ⟨sec, hsec, hcond⟩ := List.mem_filterMap.mp h
    split at hcond
    · next hc =>
      have hne := orphanMsg_inj (Option.some.inj hcond)
      rw [← hne]
      exact hc
    · exact absurd hcond (by simp)
  · intro ⟨h1, h2⟩
    exact List.mem_filterMap.mpr ⟨s, hs, by rw [if_pos ⟨h1, h2⟩]⟩

/-! ### Lemmas about parsing -/

lemma pyStrip_eq_nil {c : Str} (h : ∀ ch ∈ c, isPySpace ch = true) : pyStrip c = [] := by
  unfold pyStrip
  have h1 : c.dropWhile isPySpace = [] := List.dropWhile_eq_nil_iff.mpr h
  rw [h1]
  rfl

lemma parseSectionE_name_normalized {raw : Str} {sec : Section}
    (h : parseSectionE raw = .ok sec) :
    normalizeSectionName sec.name = sec.name := by
  simp only [parseSectionE] at h
  cases hm : matchHeader (pyStrip ((splitNl raw).headD [])) with
  | none => rw [hm] at h; exact absurd h (by simp)
  | some nameRaw =>
    rw [hm] at h
    have he := Except.ok.inj h
    have : sec.name = normalizeSectionName nameRaw := by rw [← he]
    rw [this, normalize_idem]

lemma parseSectionsGo_ok :
    ∀ (raws : List Str) (seen : List Str) (secs : List Section),
      parseSectionsGo raws seen = .ok secs →
      ((secs.map Section.name).Nodup ∧ ∀ n ∈ secs.map Section.name, n ∉ seen) ∧
        ∀ sec ∈ secs, normalizeSectionName sec.name = sec.name := by
  intro raws
  induction raws with
  | nil =>
    intro seen secs h
    have : ([] : List Section) = secs := Except.ok.inj h
    subst this
    exact ⟨⟨List.nodup_nil, by simp⟩, by simp⟩
  | cons raw rest ih =>
    intro seen secs h
    simp only [parseSectionsGo] at h
    split at h
    · exact ih seen secs h
    · split at h
      · exact absurd h (by simp)
      · next sec hp =>
        split at h
        · exact absurd h (by simp)
        · next hnotseen =>
          cases hgo : parseSectionsGo rest (sec.name :: seen) with
          | error e => rw [hgo] at h; exact absurd h (by simp [Except.map])
          | ok secs' =>
            rw [hgo] at h
            have : sec :: secs' = secs := by
              have h2 := h
              simp only [Except.map] at h2
              exact Except.ok.inj h2
            subst this
            obtain ⟨⟨hnodup, hseen⟩, hnorm⟩ := ih _ _ hgo
            refine ⟨⟨?_, ?_⟩, ?_⟩
            · simp only [List.map_cons, List.nodup_cons]
              refine ⟨fun hc => ?_, hnodup⟩
              have := hseen sec.name hc
              exact this (List.mem_cons_self _ _)
            · intro n hn
              simp only [List.map_cons, List.mem_cons] at hn
              cases hn with
              | inl he => subst he; exact hnotseen
              | inr he =>
                have := hseen n he
                intro hc
                exact this (List.mem_cons_of_mem _ hc)
            · intro s hs
              cases List.mem_cons.mp hs with
              | inl he => subst he; exact parseSectionE_name_normalized hp
              | inr he => exact hnorm s he

lemma parseSectionsE_ok {c : Str} {secs : List Section}
    (h : parseSectionsE c = .ok secs) :
    (secs.map Section.name).Nodup ∧
      ∀ sec ∈ secs, normalizeSectionName sec.name = sec.name := by
  obtain ⟨⟨h1, _⟩, h2⟩ := parseSectionsGo_ok _ _ _ h
  exact ⟨h1, h2⟩

lemma parse_ok_inv {c : Str} {st : Story} (h : parse c = .ok st) :
    ∃ md s0 srest, parseMetadataE c = .ok md ∧ parseSectionsE c = .ok (s0 :: srest) ∧
      st = ⟨(if pyTruthy md.start_section then md
             else { md with start_section := some s0.name }), s0 :: srest⟩ := by
  unfold parse at h
  split at h
  · exact absurd h (by simp)
  · cases hm : parseMetadataE c with
    | error e => rw [hm] at h; exact absurd h (by simp)
    | ok md =>
      rw [hm] at h
      cases hs : parseSectionsE c with
      | error e => rw [hs] at h; exact absurd h (by simp)
      | ok secs =>
        rw [hs] at h
        cases secs with
        | nil => exact absurd h (by simp)
        | cons s0 srest =>
          exact ⟨md, s0, srest, rfl, rfl, (Except.ok.inj h).symm⟩

/-! ### Concrete examples -/

/-- Three-section story of the spec: `start` links to `middle`; `island` is
untargeted. -/
def islandStory : Story :=
  ⟨⟨lit "T", none, some (lit "start")⟩,
   [⟨lit "start", lit "[[middle]]", [⟨lit "middle", lit "middle"⟩], []⟩,
    ⟨lit "middle", lit "The end.", [], []⟩,
    ⟨lit "island", lit "Alone.", [], []⟩]⟩

/-- Input whose `island` section's only incoming choice is its own. -/
def selfLoopInput : Str :=
  lit "---\ntitle: T\n---\n[[start]]\nEnd.\n---\n[[island]]\n[[island]]"

/-- The story parsed from `selfLoopInput`. -/
def selfLoopStory : Story :=
  ⟨⟨lit "T", none, some (lit "start")⟩,
   [⟨lit "start", lit "End.", [], []⟩,
    ⟨lit "island", lit "[[island]]", [⟨lit "island", lit "island"⟩], []⟩]⟩

/-- One-section story whose only choice dangles. -/
def missingStory : Story :=
  ⟨⟨lit "T", none, some (lit "start")⟩,
   [⟨lit "start", lit "[[Go nowhere|missing]]",
     [⟨lit "Go nowhere", lit "missing"⟩], []⟩]⟩

/-- Mutually referencing story `a` → `b` → `a`. -/
def cycleStory : Story :=
  ⟨⟨lit "T", none, some (lit "a")⟩,
   [⟨lit "a", lit "[[b]]", [⟨lit "b", lit "b"⟩], []⟩,
    ⟨lit "b", lit "[[a]]", [⟨lit "a", lit "a"⟩], []⟩]⟩

/-- Input with two headers normalizing to the same identifier. -/
def dupInput : Str := lit "---\ntitle: T\n---\n[[My Room]]\nx\n---\n[[my_room]]\ny"

/-- A well-formed two-section input with no `start` metadata key. -/
def goodInput : Str :=
  lit "---\ntitle: T\n---\n[[start]]\nHello [[middle]]\n---\n[[middle]]\nBye"

/-- The story parsed from `goodInput`. -/
def goodStory : Story :=
  ⟨⟨lit "T", none, some (lit "start")⟩,
   [⟨lit "start", lit "Hello [[middle]]", [⟨lit "middle", lit "middle"⟩], []⟩,
    ⟨lit "middle", lit "Bye", [], []⟩]⟩

/-- Input whose `start` metadata value is not normalized. -/
def c10Input : Str := lit "---\ntitle: T\nstart: My Room\n---\n[[My Room]]\nHello"

/-- The story parsed from `c10Input`. -/
def c10Story : Story :=
  ⟨⟨lit "T", none, some (lit "My Room")⟩,
   [⟨lit "my-room", lit "Hello", [], []⟩]⟩

/-! ### Claim theorems -/

/-- C3: identifier normalization lowercases its input, replaces every maximal
run of whitespace and underscores by one hyphen, and removes every remaining
character outside `[a-z0-9-]` (the code's regex pipeline equals the spec's
description); the same function is applied to section headers and to both
derived and explicit choice targets, so "My Cool Room" and "my_cool_room"
collide. -/
theorem claim_C3 :
    (∀ x : Str, normalizeSectionName x = specNormalize x) ∧
    normalizeSectionName (lit "My Cool Room") = lit "my-cool-room" ∧
    normalizeSectionName (lit "my_cool_room") = lit "my-cool-room" ∧
    parseSectionE (lit "[[My Cool Room]]\nGo [[my_cool_room]]") =
      .ok ⟨lit "my-cool-room", lit "Go [[my_cool_room]]",
        [⟨lit "my_cool_room", lit "my-cool-room"⟩], []⟩ :=
  ⟨normalize_eq_spec, by decide, by decide, by decide⟩

/-- C8: identifier normalization is idempotent. -/
theorem claim_C8 (x : Str) :
    normalizeSectionName (normalizeSectionName x) = normalizeSectionName x :=
  normalize_idem x

/-- C9: parsing an empty or all-whitespace input always fails with the
"Story content is empty" parse error. -/
theorem claim_C9 (c : Str) (h : ∀ ch ∈ c, isPySpace ch = true) :
    parse c = .error ⟨lit "Story content is empty"⟩ := by
  unfold parse
  rw [if_pos (Or.inr (pyStrip_eq_nil h))]

/-- Witness for C9 at a concrete whitespace-only input. -/
theorem claim_C9_witness :
    parse (lit "  \n\t ") = .error ⟨lit "Story content is empty"⟩ :=
  claim_C9 (lit "  \n\t ") (by decide)

/-- C4: every successfully parsed story has pairwise distinct section
identifiers, and the colliding pair `[[My Room]]` / `[[my_room]]` raises the
duplicate-section parse error. -/
theorem claim_C4 :
    (∀ (c : Str) (st : Story), parse c = .ok st →
      (st.sections.map Section.name).Nodup) ∧
    parse dupInput = .error ⟨lit "Duplicate section name (duplicate): my-room"⟩ := by
  constructor
  · intro c st h
    obtain ⟨md, s0, srest, _, hs, hst⟩ := parse_ok_inv h
    have hnodup := (parseSectionsE_ok hs).1
    rw [hst]
    exact hnodup
  · decide

/-- Witness for C4: the parsed `goodStory` has distinct section names. -/
theorem claim_C4_witness : (goodStory.sections.map Section.name).Nodup :=
  claim_C4.1 goodInput goodStory (by decide)

/-- C6: after a successful parse the start section is always assigned, and
when the metadata block has no `start` key it is the normalized identifier of
the first section in source order. -/
theorem claim_C6 (c : Str) (st : Story) (md : StoryMetadata)
    (hp : parse c = .ok st) (hm : parseMetadataE c = .ok md) :
    st.metadata.start_section.isSome = true ∧
    (md.start_section = none →
      ∃ s0 srest, st.sections = s0 :: srest ∧
        st.metadata.start_section = some s0.name) := by
  obtain ⟨md', s0, srest, hm', _, hst⟩ := parse_ok_inv hp
  rw [hm] at hm'
  have hmd : md = md' := Except.ok.inj hm'
  subst hmd
  constructor
  · rw [hst]
    cases hT : pyTruthy md.start_section with
    | true =>
      simp only [hT, if_true]
      cases hms : md.start_section with
      | none => rw [hms] at hT; exact absurd hT (by decide)
      | some v => simp [hms]
    | false => simp only [hT, if_false]; rfl
  · intro hnone
    have hT : pyTruthy md.start_section = false := by rw [hnone]; rfl
    rw [hst]
    simp only [hT, if_false]
    exact ⟨s0, srest, rfl, rfl⟩

/-- Witness for C6: `goodInput` has no `start` key and its parsed start
section is the first section's identifier. -/
theorem claim_C6_witness : goodStory.metadata.start_section = some (lit "start") := by
  obtain ⟨s0, srest, hsec, hstart⟩ :=
    (claim_C6 goodInput goodStory ⟨lit "T", none, none⟩ (by decide) (by decide)).2 rfl
  have he : goodStory.sections =
      (⟨lit "start", lit "Hello [[middle]]", [⟨lit "middle", lit "middle"⟩], []⟩ : Section) ::
        [⟨lit "middle", lit "Bye", [], []⟩] := rfl
  rw [he] at hsec
  injection hsec with h1 _
  rw [← h1] at hstart
  exact hstart

/-- C10: an explicit `start` metadata value is stored trimmed (the metadata
dict holds stripped values) but never normalized, so whenever it differs from
its own normalization it matches no (normalized) section identifier and
validation reports the start section as missing; concretely,
`start: My Room` with section `[[My Room]]` (stored as `my-room`) yields the
missing-start diagnostic. -/
theorem claim_C10 :
    (∀ (c : Str) (st : Story) (md : StoryMetadata) (v : Str),
      parse c = .ok st → parseMetadataE c = .ok md →
      md.start_section = some v → v ≠ [] →
      st.metadata.start_section = some v ∧
      (v ≠ normalizeSectionName v → startMsg v ∈ validate st)) ∧
    parse c10Input = .ok c10Story ∧
    validate c10Story = [startMsg (lit "My Room"), orphanMsg (lit "my-room")] := by
  refine ⟨?_, by decide, by decide⟩
  intro c st md v hp hm hsv hv
  obtain ⟨md', s0, srest, hm', hs, hst⟩ := parse_ok_inv hp
  rw [hm] at hm'
  have hmd : md = md' := Except.ok.inj hm'
  subst hmd
  have hT : pyTruthy md.start_section = true := by
    rw [hsv]
    simp [pyTruthy, hv]
  have hstart : st.metadata.start_section = some v := by
    rw [hst]
    simp only [hT, if_true]
    exact hsv
  refine ⟨hstart, fun hvn => ?_⟩
  have hnorm := (parseSectionsE_ok hs).2
  have hnotin : v ∉ sectionNames st := by
    intro hvmem
    obtain ⟨sec, hsec, hname⟩ := List.mem_map.mp hvmem
    have hfix : normalizeSectionName sec.name = sec.name := by
      apply hnorm
      have : st.sections = s0 :: srest := by rw [hst]
      rw [← this]
      exact hsec
    rw [hname] at hfix
    exact hvn hfix.symm
  have hse : startErrors st = [startMsg v] := by
    unfold startErrors
    rw [hstart]
    show (if v ≠ [] ∧ v ∉ sectionNames st then [startMsg v] else []) = [startMsg v]
    rw [if_pos ⟨hv, hnotin⟩]
  show startMsg v ∈ validateFuel (st.sections.length + 2) st
  unfold validateFuel
  rw [List.mem_append, List.mem_append]
  exact Or.inl (Or.inl (hse ▸ List.mem_singleton.mpr rfl))

/-- Witness for C10 at the concrete `start: My Room` input. -/
theorem claim_C10_witness :
    c10Story.metadata.start_section = some (lit "My Room") ∧
      startMsg (lit "My Room") ∈ validate c10Story := by
  have h := claim_C10.1 c10Input c10Story ⟨lit "T", none, some (lit "My Room")⟩
    (lit "My Room") (by decide) (by decide) rfl (by decide)
  exact ⟨h.1, h.2 (by decide)⟩

/-- Counterexample to C2 as stated: in `[[a| ]]` the explicit target is
present (the capture is a single space), yet the produced Choice's target is
`"a"`, the normalization of the display text — not the normalization of the
explicit target (`"-"`), nor of its trimmed form (`""`). -/
theorem claim_C2_counterexample :
    extractChoices (lit "[[a| ]]") = [⟨lit "a", lit "a"⟩] ∧
    normalizeSectionName (lit " ") = lit "-" ∧
    normalizeSectionName (pyStrip (lit " ")) = [] ∧
    (lit "a" : Str) ≠ lit "-" ∧ (lit "a" : Str) ≠ [] := by decide

/-- C2 (amended): choice extraction returns, in left-to-right order of
occurrence, one Choice per match of the pattern; the Choice's text is the
trimmed display text, and its target is the normalization of the trimmed
explicit target when one is present and does not trim to the empty string,
otherwise the normalization of the trimmed display text.  Stated for any
space-separated sequence of well-formed choice tokens, plus the spec's two
concrete examples and an ordering example. -/
theorem claim_C2 :
    (∀ (toks : List (Str × Option Str)), (∀ p ∈ toks, WFtok p.1 p.2) →
      extractChoices (spaceJoin (toks.map fun p => tokenOf p.1 p.2)) =
        toks.map choiceOfMatch) ∧
    extractChoices (lit "[[Open the door]]") =
      [⟨lit "Open the door", lit "open-the-door"⟩] ∧
    extractChoices (lit "[[Open the door|vault]]") =
      [⟨lit "Open the door", lit "vault"⟩] ∧
    extractChoices (lit "x [[B]] y [[A|second target]] z") =
      [⟨lit "B", lit "b"⟩, ⟨lit "A", lit "second-target"⟩] :=
  ⟨extractChoices_tokens, by decide, by decide, by decide⟩

/-- Witness for C2's token theorem at a concrete token list. -/
theorem claim_C2_witness :
    extractChoices (spaceJoin ([((lit "Go", none) : Str × Option Str),
      (lit "Go on", some (lit "Cave 2"))].map fun p => tokenOf p.1 p.2)) =
      [((lit "Go", none) : Str × Option Str),
        (lit "Go on", some (lit "Cave 2"))].map choiceOfMatch :=
  claim_C2.1 [(lit "Go", none), (lit "Go on", some (lit "Cave 2"))] (by decide)

/-- C5: for every story, every choice whose target names no section yields a
diagnostic naming the originating section and the missing target, regardless
of reachability; on the one-section example with `[[Go nowhere|missing]]`
validation yields exactly that one diagnostic. -/
theorem claim_C5 :
    (∀ (story : Story) (sec : Section) (ch : Choice),
      sec ∈ story.sections → ch ∈ sec.choices → ch.target ∉ sectionNames story →
      danglingMsg sec.name ch.target ∈ validate story) ∧
    validate missingStory = [danglingMsg (lit "start") (lit "missing")] := by
  refine ⟨?_, by decide⟩
  intro story sec ch hsec hch htgt
  have hval : validate story =
      (startErrors story ++
        (choiceLoop (sectionNames story)
          ([], initialReachable (story.sections.length + 2) story) story.sections).1) ++
      orphanErrors story
        (choiceLoop (sectionNames story)
          ([], initialReachable (story.sections.length + 2) story) story.sections).2 := rfl
  rw [hval]
  refine List.mem_append.mpr (Or.inl (List.mem_append.mpr (Or.inr ?_)))
  rw [choiceLoop_fst]
  simp only [List.nil_append]
  refine List.mem_flatMap.mpr ⟨sec, hsec, ?_⟩
  refine List.mem_map.mpr ⟨ch, List.mem_filter.mpr ⟨hch, ?_⟩, rfl⟩
  simp [htgt]

/-- Witness for C5 at the concrete dangling-choice story. -/
theorem claim_C5_witness :
    danglingMsg (lit "start") (lit "missing") ∈ validate missingStory :=
  claim_C5.1 missingStory
    ⟨lit "start", lit "[[Go nowhere|missing]]", [⟨lit "Go nowhere", lit "missing"⟩], []⟩
    ⟨lit "Go nowhere", lit "missing"⟩ (by decide) (by decide) (by decide)

/-- C7: validation's reachability traversal never re-expands a visited name —
its result is independent of any fuel bound of at least `sections + 2` — so
`validate` is a total function of the story; on the cyclic example
`a` → `b` → `a` it returns no diagnostics. -/
theorem claim_C7 :
    (∀ (story : Story) (fuel : Nat), story.sections.length + 2 ≤ fuel →
      validateFuel fuel story = validate story) ∧
    validate cycleStory = [] := by
  refine ⟨?_, by decide⟩
  intro story fuel hf
  have hinit : initialReachable fuel story =
      initialReachable (story.sections.length + 2) story := by
    unfold initialReachable
    cases story.metadata.start_section with
    | none => rfl
    | some st =>
      show (if st ≠ [] then markReachable fuel st story.sections [] else []) =
        (if st ≠ [] then
          markReachable (story.sections.length + 2) st story.sections [] else [])
      by_cases hst : st = []
      · rw [if_neg (by simp [hst]), if_neg (by simp [hst])]
      · rw [if_pos hst, if_pos hst]
        exact markReachable_fuel_eq hf (Nat.le_refl _)
  show validateFuel fuel story = validateFuel (story.sections.length + 2) story
  simp only [validateFuel]
  rw [hinit]

/-- Witness for C7: extra fuel does not change the cyclic example's result. -/
theorem claim_C7_witness : validateFuel 10 cycleStory = validate cycleStory :=
  claim_C7.1 cycleStory 10 (by decide)

/-- Every element of `startErrors` is a `startMsg`. -/
lemma startErrors_shape {story : Story} {m : Str} (h : m ∈ startErrors story) :
    ∃ st, m = startMsg st := by
  unfold startErrors at h
  cases hss : story.metadata.start_section with
  | none => rw [hss] at h; exact absurd h (by simp)
  | some st =>
    rw [hss] at h
    have h' : m ∈ (if st ≠ [] ∧ st ∉ sectionNames story then [startMsg st] else []) := h
    by_cases hc : st ≠ [] ∧ st ∉ sectionNames story
    · rw [if_pos hc] at h'
      exact ⟨st, List.mem_singleton.mp h'⟩
    · rw [if_neg hc] at h'
      exact absurd h' (by simp)

/-- C1 (amended): a section is reported orphaned exactly when its identifier
is not the start section, is not transitively reachable from the start
section, and is not directly targeted by a valid choice of any section —
including the section itself (the code adds every valid choice target to the
reachable set, with no "other section" restriction); the three-section
example yields exactly one diagnostic, naming `island`. -/
theorem claim_C1 :
    (∀ (story : Story) (s : Section), s ∈ story.sections →
      (orphanMsg s.name ∈ validate story ↔
        (story.metadata.start_section ≠ some s.name ∧
         ¬ startReaches story s.name ∧
         ¬ ∃ sec ∈ story.sections, ∃ ch ∈ sec.choices, ch.target = s.name))) ∧
    validate islandStory = [orphanMsg (lit "island")] := by
  refine ⟨?_, by decide⟩
  intro story s hs
  have hnames : s.name ∈ sectionNames story := List.mem_map_of_mem Section.name hs
  have hval : validate story =
      (startErrors story ++
        (choiceLoop (sectionNames story)
          ([], initialReachable (story.sections.length + 2) story) story.sections).1) ++
      orphanErrors story
        (choiceLoop (sectionNames story)
          ([], initialReachable (story.sections.length + 2) story) story.sections).2 := rfl
  have hmem2 : s.name ∈ (choiceLoop (sectionNames story)
      ([], initialReachable (story.sections.length + 2) story) story.sections).2 ↔
      (s.name ∈ initialReachable (story.sections.length + 2) story ∨
        ∃ sec ∈ story.sections, ∃ ch ∈ sec.choices, ch.target = s.name) := by
    rw [choiceLoop_snd_mem]
    constructor
    · rintro (h | ⟨sec, hsec, ch, hch, he, _⟩)
      · exact Or.inl h
      · exact Or.inr ⟨sec, hsec, ch, hch, he⟩
    · rintro (h | ⟨sec, hsec, ch, hch, he⟩)
      · exact Or.inl h
      · exact Or.inr ⟨sec, hsec, ch, hch, he, hnames⟩
  constructor
  · intro hmem
    have hin3 : orphanMsg s.name ∈ orphanErrors story
        (choiceLoop (sectionNames story)
          ([], initialReachable (story.sections.length + 2) story) story.sections).2 := by
      rw [hval] at hmem
      rcases List.mem_append.mp hmem with h12 | h3
      · exfalso
        rcases List.mem_append.mp h12 with h1 | h2
        · obtain ⟨st, he⟩ := startErrors_shape h1
          exact orphanMsg_ne_startMsg s.name st he
        · rw [choiceLoop_fst] at h2
          simp only [List.nil_append] at h2
          obtain ⟨sec, _, hm2⟩ := List.mem_flatMap.mp h2
          obtain ⟨ch, _, he⟩ := List.mem_map.mp hm2
          exact orphanMsg_ne_danglingMsg s.name sec.name ch.target he.symm
      · exact h3
    obtain ⟨hne, hnp⟩ := (orphanErrors_mem hs).mp hin3
    have hntgt : ¬ ∃ sec ∈ story.sections, ∃ ch ∈ sec.choices, ch.target = s.name :=
      fun htgt => hnp (hmem2.mpr (Or.inr htgt))
    refine ⟨hne, ?_, hntgt⟩
    intro hrtg
    unfold startReaches at hrtg
    cases hss : story.metadata.start_section with
    | none => rw [hss] at hrtg; exact hrtg
    | some st =>
      rw [hss] at hrtg
      have hrtg' : Relation.ReflTransGen (edge story.sections) st s.name := hrtg
      rcases Relation.ReflTransGen.cases_tail hrtg' with heq | ⟨b, _, hedge⟩
      · exact hne (by rw [hss, heq])
      · obtain ⟨sx, hfx, htx⟩ := hedge
        obtain ⟨ch, hch, he⟩ := List.mem_map.mp htx
        exact hntgt ⟨sx, List.mem_of_find?_eq_some hfx, ch, hch, he⟩
  · rintro ⟨hne, hnrtg, hntgt⟩
    have hnp : s.name ∉ (choiceLoop (sectionNames story)
        ([], initialReachable (story.sections.length + 2) story) story.sections).2 := by
      intro hin
      rcases hmem2.mp hin with hin0 | htgt
      · unfold initialReachable at hin0
        cases hss : story.metadata.start_section with
        | none => rw [hss] at hin0; exact absurd hin0 (by simp)
        | some st =>
          rw [hss] at hin0
          have hin0' : s.name ∈ (if st ≠ [] then
              markReachable (story.sections.length + 2) st story.sections [] else []) := hin0
          by_cases hst : st = []
          · rw [if_neg (by simp [hst])] at hin0'
            exact absurd hin0' (by simp)
          · rw [if_pos hst] at hin0'
            rcases markReachable_sound _ _ _ _ _ hin0' with h0 | hrtg
            · exact absurd h0 (by simp)
            · apply hnrtg
              unfold startReaches
              rw [hss]
              exact hrtg
      · exact hntgt htgt
    rw [hval]
    exact List.mem_append.mpr (Or.inr ((orphanErrors_mem hs).mpr ⟨hne, hnp⟩))

/-- Witness for C1: applying the equivalence to `middle` in the three-section
example shows the amended orphan conditions fail for it. -/
theorem claim_C1_witness :
    ¬ (islandStory.metadata.start_section ≠ some (lit "middle") ∧
       ¬ startReaches islandStory (lit "middle") ∧
       ¬ ∃ sec ∈ islandStory.sections, ∃ ch ∈ sec.choices, ch.target = lit "middle") := by
  intro hc
  have hmem := (claim_C1.1 islandStory ⟨lit "middle", lit "The end.", [], []⟩
    (by decide)).2 hc
  exact absurd hmem (by decide)

/-- Counterexample to C1 as stated: in the parsed self-loop story, `island`
is not the start section, is unreachable from `start`, and no *other*
section targets it (only its own choice does), yet no orphan diagnostic is
produced. -/
theorem claim_C1_counterexample :
    parse selfLoopInput = .ok selfLoopStory ∧
    validate selfLoopStory = [] ∧
    orphanMsg (lit "island") ∉ validate selfLoopStory ∧
    selfLoopStory.metadata.start_section ≠ some (lit "island") ∧
    ¬ startReaches selfLoopStory (lit "island") ∧
    ((selfLoopStory.sections.filter fun sec => sec.name != lit "island").all
      fun sec => sec.choices.all fun ch => ch.target != lit "island") = true := by
  refine ⟨by decide, by decide, by decide, by decide, ?_, by decide⟩
  intro h
  have h' : Relation.ReflTransGen (edge selfLoopStory.sections)
      (lit "start") (lit "island") := h
  have key : ∀ y, Relation.ReflTransGen (edge selfLoopStory.sections) (lit "start") y →
      y = lit "start" := by
    intro y hy
    induction hy with
    | refl => rfl
    | tail hab hbc ih =>
      obtain ⟨sx, hfx, htx⟩ := hbc
      rw [ih] at hfx
      have hfind : selfLoopStory.sections.find? (fun t => t.name == lit "start") =
          some ⟨lit "start", lit "End.", [], []⟩ := by decide
      rw [hfind] at hfx
      have hsx := Option.some.inj hfx
      rw [← hsx] at htx
      simp at htx
  exact absurd (key _ h') (by decide)

end PickAPage
